import Mathlib

/-!
Verification of the `nominat` variable-name replacer.

The Python source is embedded shallowly:

* strings are lists of character codes (`PyStr`), with the ASCII casing
  conventions of `str.lower`, `str.upper`, `str.title`, `str.islower`,
  `str.isupper`, `str.istitle`;
* the regular expression `SPLIT_CASE = (^[a-z]+|[A-Z]+(?![a-z])|[A-Z][a-z]+)`
  applied through `re.finditer` is embedded as the scanner `matchCaseAt` /
  `findIterCaseAux` (leftmost scanning, ordered alternation, greedy
  one-step backtracking for the lookahead);
* `re.sub(r'[^_]+', f, s)` is embedded as `replace_combined_aux`: maximal
  runs of non-underscore characters are rewritten by the callback, all
  other characters pass through unchanged;
* `random.choice` is embedded through an oracle stream `rng : Nat → Nat`
  together with a stream position `rngIdx` in the mutable state; the
  oracle is consumed before the empty-sequence IndexError can occur,
  exactly as in `random.choice`;
* exceptions (`IndexError` from `random.choice`, `ValueError` from
  `replace_single`) become an `Except Err` result paired with the state
  at raise time.
-/

namespace Nominat

/-! ### Character model: ASCII code points -/

def isLower (c : Nat) : Bool := 97 ≤ c && c ≤ 122

def isUpper (c : Nat) : Bool := 65 ≤ c && c ≤ 90

def isCased (c : Nat) : Bool := isLower c || isUpper c

def lowerCh (c : Nat) : Nat := if isUpper c then c + 32 else c

def upperCh (c : Nat) : Nat := if isLower c then c - 32 else c

/-- Python strings as lists of code points. -/
abbrev PyStr := List Nat

/-- Conversion from a Lean string literal to its code-point list. -/
def str (s : String) : PyStr := s.toList.map Char.toNat

/-- `str.lower()`. -/
def pyLower (s : PyStr) : PyStr := s.map lowerCh

/-- `str.upper()`. -/
def pyUpper (s : PyStr) : PyStr := s.map upperCh

/-- `str.islower()`: at least one cased character and no cased character
is uppercase. -/
def pyIsLower (s : PyStr) : Bool :=
  s.any isCased && s.all (fun c => !isCased c || isLower c)

/-- `str.isupper()`: at least one cased character and no cased character
is lowercase. -/
def pyIsUpper (s : PyStr) : Bool :=
  s.any isCased && s.all (fun c => !isCased c || isUpper c)

/-- Worker for `str.istitle()`; the flag records whether the previous
character was cased. -/
def pyIsTitleAux : Bool → PyStr → Bool
  | _, [] => true
  | prev, c :: rest =>
    if isUpper c then !prev && pyIsTitleAux true rest
    else if isLower c then prev && pyIsTitleAux true rest
    else pyIsTitleAux false rest

/-- `str.istitle()`: uppercase characters only follow uncased ones,
lowercase characters only follow cased ones, and at least one character
is cased. -/
def pyIsTitle (s : PyStr) : Bool := s.any isCased && pyIsTitleAux false s

/-- Worker for `str.title()`; the flag records whether the previous
character was cased. -/
def pyTitleAux : Bool → PyStr → PyStr
  | _, [] => []
  | prev, c :: rest =>
    if isLower c then (if prev then c else upperCh c) :: pyTitleAux true rest
    else if isUpper c then (if prev then lowerCh c else c) :: pyTitleAux true rest
    else c :: pyTitleAux false rest

/-- `str.title()`: the first cased character of every maximal cased run is
uppercased, the following cased characters are lowercased. -/
def pyTitle (s : PyStr) : PyStr := pyTitleAux false s

/-- All cased characters of the word are lowercase (the `all` half of
`islower`, without the existence half). -/
def casedLower (w : PyStr) : Prop :=
  ∀ c ∈ w, isCased c = true → isLower c = true

/-! ### The case splitter

`SPLIT_CASE = r'(^[a-z]+|[A-Z]+(?![a-z])|[A-Z][a-z]+)'` scanned with
`re.finditer`: positions are tried left to right, at each position the
three alternatives are tried in order, `^` only matches at position 0 of
the scanned string, `[A-Z]+(?![a-z])` backtracks by exactly one character
when the maximal uppercase run is followed by a lowercase letter. -/

/-- A single attempted match of `SPLIT_CASE` at the current position.
`atStart` is true when the position is the start of the string (for the
`^` anchor).  Returns the matched text and the remainder of the string. -/
def matchCaseAt (atStart : Bool) : PyStr → Option (PyStr × PyStr)
  | [] => none
  | c :: rest =>
    if atStart && isLower c then
      some (c :: List.takeWhile isLower rest, List.dropWhile isLower rest)
    else if isUpper c then
      match List.takeWhile isUpper rest, List.dropWhile isUpper rest with
      | u, [] => some (c :: u, [])
      | u, d :: rest2 =>
        if isLower d then
          match u with
          | [] => some (c :: List.takeWhile isLower rest, List.dropWhile isLower rest)
          | e :: u2 =>
            some (c :: (e :: u2).dropLast, (e :: u2).getLast (by simp) :: d :: rest2)
        else some (c :: u, d :: rest2)
    else none

/-- `re.finditer(SPLIT_CASE, ...)`, fuel-indexed: scan left to right,
emit each match, resume after it; skip one character when no alternative
matches.  `fuel ≥ s.length` always suffices. -/
def findIterCaseAux : Nat → Bool → PyStr → List PyStr
  | 0, _, _ => []
  | fuel + 1, a, s =>
    match s with
    | [] => []
    | c :: rest =>
      match matchCaseAt a (c :: rest) with
      | some (m, r) => m :: findIterCaseAux fuel false r
      | none => findIterCaseAux fuel false rest

/-- `split_replace_by_case`: the matches of `SPLIT_CASE` over `word`,
in order. -/
def split_replace_by_case (word : PyStr) : List PyStr :=
  findIterCaseAux word.length true word

/-! ### The Nominator -/

/-- Exceptions that the replacement pipeline can raise: `IndexError` from
`random.choice` on an empty sequence, `ValueError` from `replace_single`
on an unrecognized word casing. -/
inductive Err where
  | indexError : Err
  | valueError : Err
deriving DecidableEq, Repr

/-- The immutable part of a `Nominator`: the replacement candidate list,
the exemption set (`_no_replace`, a set of lowercase words, modelled by
list membership) and the oracle stream backing `random.choice`. -/
structure Nominator where
  replacements : List PyStr
  no_replace : List PyStr
  rng : Nat → Nat

/-- The mutable part of a `Nominator`: the replacement cache (`self.cache`,
a dict modelled as an association list queried front to back) and the
position in the random oracle stream. -/
structure NomState where
  cache : List (PyStr × PyStr)
  rngIdx : Nat
deriving DecidableEq, Repr

/-- Dictionary lookup in the cache. -/
def cacheGet (w : PyStr) : List (PyStr × PyStr) → Option PyStr
  | [] => none
  | (k, v) :: rest => if k = w then some v else cacheGet w rest

/-- `random.choice(seq)`: draws `self.random()` (here: the oracle value
`r`), then indexes; the empty sequence gives `none` (IndexError). -/
def randomChoice (r : Nat) (seq : List PyStr) : Option PyStr :=
  seq.get? (r % seq.length)

/-- `Nominator._replace`: exempt words are returned unchanged, cached
words come from the cache, otherwise a random candidate is drawn, cached
and returned.  The oracle is consumed before the IndexError can occur. -/
def Nominator._replace (nom : Nominator) (word : PyStr) (st : NomState) :
    Except Err PyStr × NomState :=
  if word ∈ nom.no_replace then (.ok word, st)
  else
    match cacheGet word st.cache with
    | some r => (.ok r, st)
    | none =>
      match randomChoice (nom.rng st.rngIdx) nom.replacements with
      | none => (.error .indexError, { st with rngIdx := st.rngIdx + 1 })
      | some repl =>
        (.ok repl, { cache := (word, repl) :: st.cache, rngIdx := st.rngIdx + 1 })

/-- `Nominator.replace_single`: classify the casing of `word`, replace its
lowercased form and re-apply the casing; raise `ValueError` on any other
casing. -/
def Nominator.replace_single (nom : Nominator) (word : PyStr) (st : NomState) :
    Except Err PyStr × NomState :=
  if pyIsLower word then nom._replace word st
  else if pyIsUpper word then
    match nom._replace (pyLower word) st with
    | (.ok r, st2) => (.ok (pyUpper r), st2)
    | (.error e, st2) => (.error e, st2)
  else if pyIsTitle word then
    match nom._replace (pyLower word) st with
    | (.ok r, st2) => (.ok (pyTitle r), st2)
    | (.error e, st2) => (.error e, st2)
  else (.error .valueError, st)

/-- `''.join(itertools.imap(self.replace_single, ...))`: replace each word
left to right, threading the state; an exception aborts the join. -/
def processCased (nom : Nominator) : List PyStr → NomState → Except Err PyStr × NomState
  | [], st => (.ok [], st)
  | w :: ws, st =>
    match nom.replace_single w st with
    | (.error e, st2) => (.error e, st2)
    | (.ok r, st2) =>
      match processCased nom ws st2 with
      | (.error e, st3) => (.error e, st3)
      | (.ok rs, st3) => (.ok (r ++ rs), st3)

/-- `Nominator._process_cased_words`: the replacement callback for one
underscore-free chunk — the concatenation of the replacements of the
words the case splitter yields (characters of the chunk not covered by a
match do not appear in the result). -/
def Nominator._process_cased_words (nom : Nominator) (chunk : PyStr)
    (st : NomState) : Except Err PyStr × NomState :=
  processCased nom (split_replace_by_case chunk) st

/-- `re.sub(r'[^_]+', self._process_cased_words, word)`, fuel-indexed:
underscores pass through unchanged, every maximal run of non-underscore
characters is rewritten by `_process_cased_words`.  `fuel ≥ s.length`
always suffices. -/
def replace_combined_aux (nom : Nominator) :
    Nat → PyStr → NomState → Except Err PyStr × NomState
  | 0, _, st => (.ok [], st)
  | fuel + 1, s, st =>
    match s with
    | [] => (.ok [], st)
    | c :: rest =>
      if c = 95 then
        match replace_combined_aux nom fuel rest st with
        | (.error e, st2) => (.error e, st2)
        | (.ok out, st2) => (.ok (c :: out), st2)
      else
        let chunk := c :: List.takeWhile (fun d => !(d == 95)) rest
        let rest2 := List.dropWhile (fun d => !(d == 95)) rest
        match nom._process_cased_words chunk st with
        | (.error e, st2) => (.error e, st2)
        | (.ok out, st2) =>
          match replace_combined_aux nom fuel rest2 st2 with
          | (.error e, st3) => (.error e, st3)
          | (.ok out2, st3) => (.ok (out ++ out2), st3)

/-- `Nominator.replace_combined` (also `Nominator.__call__`). -/
def Nominator.replace_combined (nom : Nominator) (word : PyStr)
    (st : NomState) : Except Err PyStr × NomState :=
  replace_combined_aux nom word.length word st

/-! ### Concrete instances used by the test suite -/

/-- The `chicken` fixture: every word becomes `"chicken"`, `"id"` is
exempt. -/
def chickenNom : Nominator :=
  { replacements := [str "chicken"], no_replace := [str "id"], rng := fun _ => 0 }

/-- The `empty` fixture: no replacement candidates at all. -/
def emptyNom : Nominator :=
  { replacements := [], no_replace := [], rng := fun _ => 0 }

/-- The `spam` fixture: every new word becomes `"spam"`, with a
pre-filled cache. -/
def spamNom : Nominator :=
  { replacements := [str "spam"], no_replace := [], rng := fun _ => 0 }

/-- The pre-filled cache of the `spam` fixture. -/
def spamSt : NomState :=
  { cache := [(str "foo", str "egg"), (str "bar", str "bacon"),
              (str "baz", str "sausage")],
    rngIdx := 0 }

/-- A fresh state: empty cache, oracle at position 0. -/
def st0 : NomState := { cache := [], rngIdx := 0 }

/-- The cache `{'version': 'plane', '3': 'fan'}` of `test_replace_numerals`. -/
def versSt : NomState :=
  { cache := [(str "version", str "plane"), (str "3", str "fan")], rngIdx := 0 }

/-! ### Helper lemmas -/

theorem length_dropWhile_le (p : Nat → Bool) (l : PyStr) :
    (List.dropWhile p l).length ≤ l.length := by
  induction l with
  | nil => simp
  | cons c rest ih =>
    by_cases h : p c
    · simpa [List.dropWhile, h] using Nat.le_succ_of_le ih
    · simp [List.dropWhile, h]

/-- Every successful match is nonempty, so the remainder shrinks. -/
theorem matchCaseAt_length_lt (a : Bool) (s m r : PyStr)
    (h : matchCaseAt a s = some (m, r)) : r.length < s.length := by
  match s with
  | [] => simp [matchCaseAt] at h
  | c :: rest =>
    have hbase := length_dropWhile_le isLower rest
    have hbase2 := length_dropWhile_le isUpper rest
    simp only [matchCaseAt] at h
    split at h
    · simp only [Option.some.injEq, Prod.mk.injEq] at h
      obtain ⟨rfl, rfl⟩ := h
      exact Nat.lt_succ_of_le hbase
    · split at h
      · split at h
        · simp only [Option.some.injEq, Prod.mk.injEq] at h
          obtain ⟨rfl, rfl⟩ := h
          simp
        · rename_i u d rest2 htd
          split at h
          · split at h
            · simp only [Option.some.injEq, Prod.mk.injEq] at h
              obtain ⟨rfl, rfl⟩ := h
              exact Nat.lt_succ_of_le hbase
            · rename_i e u2 hu
              simp only [Option.some.injEq, Prod.mk.injEq] at h
              obtain ⟨rfl, rfl⟩ := h
              have hlen : rest.length = (e :: u2).length + (d :: rest2).length := by
                conv_lhs =>
                  rw [← List.takeWhile_append_dropWhile (p := isUpper) (l := rest)]
                rw [hu, htd, List.length_append]
              simp only [List.length_cons] at hlen ⊢
              omega
          · simp only [Option.some.injEq, Prod.mk.injEq] at h
            obtain ⟨rfl, rfl⟩ := h
            rw [htd] at hbase2
            simpa using Nat.lt_succ_of_le hbase2
      · simp at h

/-! ### Basic facts about `_replace` -/

/-- On a nonempty sequence, `random.choice` succeeds. -/
theorem randomChoice_ne_nil (r : Nat) (seq : List PyStr) (h : seq ≠ []) :
    ∃ x, randomChoice r seq = some x ∧ x ∈ seq := by
  have hlt : r % seq.length < seq.length :=
    Nat.mod_lt _ (List.length_pos.mpr h)
  exact ⟨seq.get ⟨_, hlt⟩, List.get?_eq_get hlt, List.get_mem _ _ _⟩

/-! ### Claim theorems (concrete evaluations and error behaviour) -/

/-- C1: the claim says every character of an underscore-free chunk outside
a detected casing word is preserved verbatim, with
`replace_combined("This (super) neat:thing") = "Chicken (chicken) chicken:chicken"`
on an all-chicken Nominator.  The code disagrees (and thereby fails its
own test `test_word_boundaries`): the chunk is rewritten to the join of
the replaced matches only, and since `^[a-z]+` anchors to the chunk
start, `super`, `neat` and `thing` are not matched at all — the whole
chunk collapses to `"Chicken"`. -/
theorem c1_boundary_chars_dropped :
    (chickenNom.replace_combined (str "This (super) neat:thing") st0).1
      = .ok (str "Chicken") := rfl

/-- C2: the claim says digit runs are classified as lowercase words and
replaced, with `replace_combined("VERSION_3") = "PLANE_fan"` from the
cache `{'version': 'plane', '3': 'fan'}`.  The code disagrees (and
thereby fails its own test `test_replace_numerals`): `"3".islower()` is
false in Python, so `replace_single("3")` raises `ValueError`, and the
case splitter never matches a digit run, so the chunk `"3"` is rewritten
to the empty join and the call returns `"PLANE_"`. -/
theorem c2_numerals_dropped :
    (emptyNom.replace_combined (str "VERSION_3") versSt).1 = .ok (str "PLANE_")
      ∧ emptyNom.replace_single (str "3") versSt = (.error .valueError, versSt) :=
  ⟨rfl, rfl⟩

/-- C5: `_replace` raises the empty-candidate-pool `IndexError` exactly
when the word is not exempt, has no cache entry, and the candidate list
is empty; in particular a cached word is served from the cache without
error even with an empty candidate list. -/
theorem c5_indexError_iff (nom : Nominator) (w : PyStr) (st : NomState) :
    (nom._replace w st).1 = .error .indexError ↔
      w ∉ nom.no_replace ∧ cacheGet w st.cache = none ∧ nom.replacements = [] := by
  by_cases hnr : w ∈ nom.no_replace
  · simp [Nominator._replace, hnr]
  · cases hc : cacheGet w st.cache with
    | some r => simp [Nominator._replace, hnr, hc]
    | none =>
      cases hrep : nom.replacements with
      | nil => simp [Nominator._replace, hnr, hc, hrep, randomChoice]
      | cons a as =>
        obtain ⟨x, hx, -⟩ :=
          randomChoice_ne_nil (nom.rng st.rngIdx) nom.replacements (by simp [hrep])
        rw [hrep] at hx
        simp [Nominator._replace, hnr, hc, hrep, hx]

/-- C7: against a cache that maps `foo` to `egg`, `replace_single`
round-trips the input casing onto the single cached lowercase
replacement: `foo → egg`, `FOO → EGG`, `Foo → Egg`. -/
theorem c7_case_roundtrip :
    spamNom.replace_single (str "foo") spamSt = (.ok (str "egg"), spamSt)
      ∧ spamNom.replace_single (str "FOO") spamSt = (.ok (str "EGG"), spamSt)
      ∧ spamNom.replace_single (str "Foo") spamSt = (.ok (str "Egg"), spamSt) :=
  ⟨rfl, rfl, rfl⟩

/-- C8: the case splitter cuts `simpleHTTPRequestMethod` into exactly
`simple`, `HTTP`, `Request`, `Method` (the uppercase run stops one
character early before `Request`), and the all-chicken Nominator maps
the name to `chickenCHICKENChickenChicken`. -/
theorem c8_acronym_split :
    split_replace_by_case (str "simpleHTTPRequestMethod")
        = [str "simple", str "HTTP", str "Request", str "Method"]
      ∧ (chickenNom.replace_combined (str "simpleHTTPRequestMethod") st0).1
        = .ok (str "chickenCHICKENChickenChicken") :=
  ⟨rfl, rfl⟩

/-- Underscore runs are passed through `replace_combined` unchanged. -/
theorem replace_combined_aux_replicate (nom : Nominator) :
    ∀ (fuel n : Nat) (st : NomState), n ≤ fuel →
      replace_combined_aux nom fuel (List.replicate n 95) st
        = (.ok (List.replicate n 95), st) := by
  intro fuel
  induction fuel with
  | zero =>
    intro n st hn
    obtain rfl : n = 0 := Nat.le_zero.mp hn
    rfl
  | succ fuel ih =>
    intro n st hn
    cases n with
    | zero => rfl
    | succ n =>
      have : replace_combined_aux nom fuel (List.replicate n 95) st
          = (.ok (List.replicate n 95), st) := ih n st (Nat.le_of_succ_le_succ hn)
      simp [List.replicate, replace_combined_aux, this]

/-- C9: `replace_combined` splits only at underscore boundaries and every
underscore stays in place: any run of consecutive underscores maps to
itself, and with the cache `{'x': 'chicken'}`,
`replace_combined("x__x") = "chicken__chicken"`. -/
theorem c9_underscores_preserved :
    (∀ (nom : Nominator) (n : Nat) (st : NomState),
        nom.replace_combined (List.replicate n 95) st
          = (.ok (List.replicate n 95), st))
      ∧ (chickenNom.replace_combined (str "x__x")
          { cache := [(str "x", str "chicken")], rngIdx := 0 }).1
        = .ok (str "chicken__chicken") := by
  refine ⟨fun nom n st => ?_, rfl⟩
  unfold Nominator.replace_combined
  rw [List.length_replicate]
  exact replace_combined_aux_replicate nom n n st le_rfl

/-- C10: when `_replace` fails (the only failure is the
empty-candidate-pool `IndexError`), the cache is exactly as it was: the
candidate is drawn before the cache assignment, so the failed call
creates no entry. -/
theorem c10_error_cache_unchanged (nom : Nominator) (w : PyStr)
    (st st2 : NomState) (e : Err) (h : nom._replace w st = (.error e, st2)) :
    st2.cache = st.cache := by
  by_cases hnr : w ∈ nom.no_replace
  · simp [Nominator._replace, hnr] at h
  · cases hc : cacheGet w st.cache with
    | some r => simp [Nominator._replace, hnr, hc] at h
    | none =>
      cases hrc : randomChoice (nom.rng st.rngIdx) nom.replacements with
      | none =>
        simp only [Nominator._replace, hnr, if_false, hc, hrc] at h
        obtain ⟨-, rfl⟩ := Prod.mk.injEq .. ▸ h
        rfl
      | some repl => simp [Nominator._replace, hnr, hc, hrc] at h

/-- Witness for C10 at a concrete input: the empty Nominator fails on
`"anykey"` and leaves the (empty) cache unchanged. -/
theorem c10_witness :
    (emptyNom._replace (str "anykey") st0).2.cache = st0.cache :=
  c10_error_cache_unchanged emptyNom (str "anykey") st0
    { cache := [], rngIdx := 1 } .indexError rfl


theorem isUpper_false_of_isLower {c : Nat} (h : isLower c = true) : isUpper c = false := by
  simp only [isLower, Bool.and_eq_true, decide_eq_true_eq] at h
  simp only [isUpper, Bool.and_eq_false_iff, decide_eq_false_iff_not]
  omega

theorem isLower_false_of_isUpper {c : Nat} (h : isUpper c = true) : isLower c = false := by
  simp only [isUpper, Bool.and_eq_true, decide_eq_true_eq] at h
  simp only [isLower, Bool.and_eq_false_iff, decide_eq_false_iff_not]
  omega

theorem isCased_of_isLower {c : Nat} (h : isLower c = true) : isCased c = true := by
  simp [isCased, h]

theorem isCased_of_isUpper {c : Nat} (h : isUpper c = true) : isCased c = true := by
  simp [isCased, h]

/-- A word starting with a lowercase letter followed by lowercase letters
is `islower`. -/
theorem pyIsLower_cons (c : Nat) (l : PyStr) (hc : isLower c = true)
    (hl : ∀ x ∈ l, isLower x = true) : pyIsLower (c :: l) = true := by
  simp only [pyIsLower, Bool.and_eq_true, List.any_cons, List.all_cons,
    Bool.or_eq_true, List.all_eq_true, List.any_eq_true]
  refine ⟨Or.inl (isCased_of_isLower hc), by simp [hc], fun x hx => by simp [hl x hx]⟩

/-- A word of uppercase letters is `isupper`. -/
theorem pyIsUpper_cons (c : Nat) (l : PyStr) (hc : isUpper c = true)
    (hl : ∀ x ∈ l, isUpper x = true) : pyIsUpper (c :: l) = true := by
  simp only [pyIsUpper, Bool.and_eq_true, List.any_cons, List.all_cons,
    Bool.or_eq_true, List.all_eq_true, List.any_eq_true]
  refine ⟨Or.inl (isCased_of_isUpper hc), by simp [hc], fun x hx => by simp [hl x hx]⟩

theorem pyIsTitleAux_of_lower (l : PyStr) (hl : ∀ x ∈ l, isLower x = true) :
    pyIsTitleAux true l = true := by
  induction l with
  | nil => rfl
  | cons c rest ih =>
    have hc := hl c (by simp)
    simp only [pyIsTitleAux, isUpper_false_of_isLower hc, hc, if_true, if_false]
    exact ih fun x hx => hl x (by simp [hx])

/-- An uppercase letter followed by lowercase letters is `istitle`. -/
theorem pyIsTitle_cons (c : Nat) (l : PyStr) (hc : isUpper c = true)
    (hl : ∀ x ∈ l, isLower x = true) : pyIsTitle (c :: l) = true := by
  simp only [pyIsTitle, Bool.and_eq_true, List.any_cons, Bool.or_eq_true,
    List.any_eq_true, pyIsTitleAux, hc, if_true, Bool.not_false, Bool.true_and]
  exact ⟨Or.inl (isCased_of_isUpper hc), pyIsTitleAux_of_lower l hl⟩

/-- Every match of `SPLIT_CASE` is all-lowercase, all-uppercase or
title-case. -/
theorem matchCaseAt_casing (a : Bool) (s m r : PyStr)
    (h : matchCaseAt a s = some (m, r)) :
    pyIsLower m = true ∨ pyIsUpper m = true ∨ pyIsTitle m = true := by
  match s with
  | [] => simp [matchCaseAt] at h
  | c :: rest =>
    simp only [matchCaseAt] at h
    split at h
    · rename_i hcond
      simp only [Option.some.injEq, Prod.mk.injEq] at h
      obtain ⟨rfl, rfl⟩ := h
      rw [Bool.and_eq_true] at hcond
      exact Or.inl (pyIsLower_cons c _ hcond.2
        fun x hx => List.mem_takeWhile_imp hx)
    · split at h
      · rename_i hcu
        split at h
        · simp only [Option.some.injEq, Prod.mk.injEq] at h
          obtain ⟨rfl, rfl⟩ := h
          exact Or.inr (Or.inl (pyIsUpper_cons c _ hcu
            fun x hx => List.mem_takeWhile_imp hx))
        · rename_i u d rest2 htd
          split at h
          · split at h
            · simp only [Option.some.injEq, Prod.mk.injEq] at h
              obtain ⟨rfl, rfl⟩ := h
              rename_i hld _
              exact Or.inr (Or.inr (pyIsTitle_cons c _ hcu
                fun x hx => List.mem_takeWhile_imp hx))
            · rename_i e u2 hu
              simp only [Option.some.injEq, Prod.mk.injEq] at h
              obtain ⟨rfl, rfl⟩ := h
              refine Or.inr (Or.inl (pyIsUpper_cons c _ hcu fun x hx => ?_))
              have hxm : x ∈ e :: u2 := List.dropLast_subset _ hx
              rw [← hu] at hxm
              exact List.mem_takeWhile_imp hxm
          · simp only [Option.some.injEq, Prod.mk.injEq] at h
            obtain ⟨rfl, rfl⟩ := h
            exact Or.inr (Or.inl (pyIsUpper_cons c _ hcu
              fun x hx => List.mem_takeWhile_imp hx))
      · simp at h

/-- Every word the case splitter yields is all-lowercase, all-uppercase
or title-case. -/
theorem findIterCaseAux_casing :
    ∀ (fuel : Nat) (a : Bool) (s w : PyStr), w ∈ findIterCaseAux fuel a s →
      pyIsLower w = true ∨ pyIsUpper w = true ∨ pyIsTitle w = true := by
  intro fuel
  induction fuel with
  | zero => intro a s w hw; simp [findIterCaseAux] at hw
  | succ fuel ih =>
    intro a s w hw
    match s with
    | [] => simp [findIterCaseAux] at hw
    | c :: rest =>
      simp only [findIterCaseAux] at hw
      cases hm : matchCaseAt a (c :: rest) with
      | some mr =>
        obtain ⟨m, r⟩ := mr
        rw [hm] at hw
        simp only [List.mem_cons] at hw
        rcases hw with rfl | hw2
        · exact matchCaseAt_casing a (c :: rest) w r hm
        · exact ih false r w hw2
      | none =>
        rw [hm] at hw
        exact ih false rest w hw


/-- With a nonempty candidate list, `_replace` always succeeds. -/
theorem _replace_ok (nom : Nominator) (h : nom.replacements ≠ [])
    (w : PyStr) (st : NomState) :
    ∃ r st2, nom._replace w st = (.ok r, st2) := by
  by_cases hnr : w ∈ nom.no_replace
  · exact ⟨w, st, by simp [Nominator._replace, hnr]⟩
  · cases hc : cacheGet w st.cache with
    | some r => exact ⟨r, st, by simp [Nominator._replace, hnr, hc]⟩
    | none =>
      obtain ⟨x, hx, -⟩ := randomChoice_ne_nil (nom.rng st.rngIdx) nom.replacements h
      exact ⟨x, { cache := (w, x) :: st.cache, rngIdx := st.rngIdx + 1 },
        by simp [Nominator._replace, hnr, hc, hx]⟩

/-- With a nonempty candidate list, `replace_single` succeeds on every
word of one of the three recognized casings. -/
theorem replace_single_ok (nom : Nominator) (h : nom.replacements ≠ [])
    (w : PyStr) (hw : pyIsLower w = true ∨ pyIsUpper w = true ∨ pyIsTitle w = true)
    (st : NomState) :
    ∃ r st2, nom.replace_single w st = (.ok r, st2) := by
  by_cases h1 : pyIsLower w = true
  · obtain ⟨r, st2, hr⟩ := _replace_ok nom h w st
    exact ⟨r, st2, by simp [Nominator.replace_single, h1, hr]⟩
  · by_cases h2 : pyIsUpper w = true
    · obtain ⟨r, st2, hr⟩ := _replace_ok nom h (pyLower w) st
      exact ⟨pyUpper r, st2, by simp [Nominator.replace_single, h1, h2, hr]⟩
    · have h3 : pyIsTitle w = true := by tauto
      obtain ⟨r, st2, hr⟩ := _replace_ok nom h (pyLower w) st
      exact ⟨pyTitle r, st2, by simp [Nominator.replace_single, h1, h2, h3, hr]⟩

/-- With a nonempty candidate list, the join over the splitter's words
succeeds. -/
theorem processCased_ok (nom : Nominator) (h : nom.replacements ≠ []) :
    ∀ (ws : List PyStr),
      (∀ w ∈ ws, pyIsLower w = true ∨ pyIsUpper w = true ∨ pyIsTitle w = true) →
      ∀ st, ∃ out st2, processCased nom ws st = (.ok out, st2) := by
  intro ws
  induction ws with
  | nil => exact fun _ st => ⟨[], st, rfl⟩
  | cons w ws ih =>
    intro hws st
    obtain ⟨r, st2, hr⟩ := replace_single_ok nom h w (hws w (by simp)) st
    obtain ⟨rs, st3, hrs⟩ := ih (fun x hx => hws x (by simp [hx])) st2
    exact ⟨r ++ rs, st3, by simp [processCased, hr, hrs]⟩

/-- With a nonempty candidate list, `replace_combined_aux` succeeds at
every fuel. -/
theorem replace_combined_aux_ok (nom : Nominator) (h : nom.replacements ≠ []) :
    ∀ (fuel : Nat) (s : PyStr) (st : NomState),
      ∃ out st2, replace_combined_aux nom fuel s st = (.ok out, st2) := by
  intro fuel
  induction fuel with
  | zero => exact fun s st => ⟨[], st, rfl⟩
  | succ fuel ih =>
    intro s st
    match s with
    | [] => exact ⟨[], st, rfl⟩
    | c :: rest =>
      by_cases hc : c = 95
      · obtain ⟨out, st2, hout⟩ := ih rest st
        exact ⟨c :: out, st2, by simp [replace_combined_aux, hc, hout]⟩
      · obtain ⟨out, st2, hout⟩ := processCased_ok nom h
          (split_replace_by_case (c :: List.takeWhile (fun d => !(d == 95)) rest))
          (fun w hw => findIterCaseAux_casing _ true _ w hw) st
        obtain ⟨out2, st3, hout2⟩ := ih (List.dropWhile (fun d => !(d == 95)) rest) st2
        refine ⟨out ++ out2, st3, ?_⟩
        simp [replace_combined_aux, hc, Nominator._process_cased_words, hout, hout2]

/-- C4: every word the case splitter emits has one of the three
recognized casings, so the `ValueError` branch of `replace_single` is
unreachable from `replace_combined`; consequently, when the candidate
list is nonempty, `replace_combined` never fails on any input. -/
theorem c4_never_fails (nom : Nominator) (h : nom.replacements ≠ []) :
    (∀ (s w : PyStr), w ∈ split_replace_by_case s →
        pyIsLower w = true ∨ pyIsUpper w = true ∨ pyIsTitle w = true)
      ∧ (∀ (s : PyStr) (st : NomState),
          ∃ out st2, nom.replace_combined s st = (.ok out, st2)) :=
  ⟨fun s w hw => findIterCaseAux_casing s.length true s w hw,
   fun s st => replace_combined_aux_ok nom h s.length s st⟩

/-- Witness for C4 at a concrete input. -/
theorem c4_witness :
    chickenNom.replacements ≠ []
      ∧ ∃ out st2,
          chickenNom.replace_combined (str "some_PascalCase_and_3") st0
            = (.ok out, st2) :=
  ⟨by decide, (c4_never_fails chickenNom (by decide)).2 (str "some_PascalCase_and_3") st0⟩


/-! ### Casing algebra -/

theorem casedLower_of_pyIsLower {w : PyStr} (h : pyIsLower w = true) :
    casedLower w := by
  simp only [pyIsLower, Bool.and_eq_true, List.all_eq_true] at h
  intro c hc hcc
  have h2 := h.2 c hc
  simpa [hcc] using h2

theorem anyCased_of_pyIsLower {w : PyStr} (h : pyIsLower w = true) :
    w.any isCased = true := by
  simp only [pyIsLower, Bool.and_eq_true] at h
  exact h.1

theorem not_lower_of_not_cased {c : Nat} (h : isCased c = false) :
    isLower c = false := by
  cases hl : isLower c with
  | true => rw [isCased_of_isLower hl] at h; cases h
  | false => rfl

theorem not_upper_of_not_cased {c : Nat} (h : isCased c = false) :
    isUpper c = false := by
  cases hu : isUpper c with
  | true => rw [isCased_of_isUpper hu] at h; cases h
  | false => rfl

theorem upperCh_isUpper {c : Nat} (h : isLower c = true) :
    isUpper (upperCh c) = true := by
  have h2 : 97 ≤ c ∧ c ≤ 122 := by simpa [isLower] using h
  simp [upperCh, h, isUpper]
  omega

theorem upperCh_id {c : Nat} (h : isLower c = false) : upperCh c = c := by
  simp [upperCh, h]

theorem lowerCh_id {c : Nat} (h : isUpper c = false) : lowerCh c = c := by
  simp [lowerCh, h]

theorem lowerCh_upperCh {c : Nat} (h : isLower c = true) :
    lowerCh (upperCh c) = c := by
  have h2 : 97 ≤ c ∧ c ≤ 122 := by simpa [isLower] using h
  have hu : isUpper (c - 32) = true := by
    simp [isUpper]
    omega
  simp [upperCh, lowerCh, h, hu]
  omega

theorem isCased_upperCh (c : Nat) : isCased (upperCh c) = isCased c := by
  cases hl : isLower c with
  | true =>
    rw [isCased_of_isLower hl]
    simp [isCased, upperCh_isUpper hl]
  | false => rw [upperCh_id hl]

theorem isUpper_lowerCh {c : Nat} (h : isUpper c = true) :
    isLower (lowerCh c) = true := by
  have h2 : 65 ≤ c ∧ c ≤ 90 := by simpa [isUpper] using h
  simp [lowerCh, h, isLower]
  omega

theorem isCased_lowerCh (c : Nat) : isCased (lowerCh c) = isCased c := by
  cases hu : isUpper c with
  | true =>
    rw [isCased_of_isUpper hu]
    simp [isCased, isUpper_lowerCh hu]
  | false => rw [lowerCh_id hu]

/-- A character of a cased-lowercase word that is not lowercase is not
cased at all. -/
theorem not_cased_of_casedLower {w : PyStr} (hcl : casedLower w) {c : Nat}
    (hc : c ∈ w) (h : isLower c = false) : isCased c = false := by
  cases he : isCased c with
  | true =>
    have := hcl c hc he
    rw [h] at this
    cases this
  | false => rfl

theorem pyLower_pyUpper {w : PyStr} (hcl : casedLower w) :
    pyLower (pyUpper w) = w := by
  induction w with
  | nil => rfl
  | cons c rest ih =>
    have hrest : casedLower rest := fun x hx hc => hcl x (by simp [hx]) hc
    have hmain := ih hrest
    show lowerCh (upperCh c) :: pyLower (pyUpper rest) = c :: rest
    cases hl : isLower c with
    | true => rw [lowerCh_upperCh hl, hmain]
    | false =>
      have h3 : isCased c = false := not_cased_of_casedLower hcl (by simp) hl
      rw [upperCh_id hl, lowerCh_id (not_upper_of_not_cased h3), hmain]

theorem pyIsUpper_pyUpper {w : PyStr} (h : pyIsLower w = true) :
    pyIsUpper (pyUpper w) = true := by
  have hcl := casedLower_of_pyIsLower h
  obtain ⟨c, hc, hcased⟩ := List.any_eq_true.mp (anyCased_of_pyIsLower h)
  simp only [pyIsUpper, pyUpper, Bool.and_eq_true, List.any_map, List.all_map,
    List.any_eq_true, List.all_eq_true, Function.comp]
  constructor
  · exact ⟨c, hc, by rw [isCased_upperCh]; exact hcased⟩
  · intro x hx
    cases hl : isLower x with
    | true => simp [upperCh_isUpper hl]
    | false =>
      have h3 : isCased x = false := not_cased_of_casedLower hcl hx hl
      simp [upperCh_id hl, h3]

theorem pyIsLower_eq_false_of_upper_mem {v : PyStr} {x : Nat} (hx : x ∈ v)
    (hu : isUpper x = true) : pyIsLower v = false := by
  cases he : pyIsLower v with
  | true =>
    have := casedLower_of_pyIsLower he x hx (isCased_of_isUpper hu)
    rw [isLower_false_of_isUpper hu] at this
    cases this
  | false => rfl

theorem pyIsLower_pyUpper {w : PyStr} (h : pyIsLower w = true) :
    pyIsLower (pyUpper w) = false := by
  have hcl := casedLower_of_pyIsLower h
  obtain ⟨c, hc, hcased⟩ := List.any_eq_true.mp (anyCased_of_pyIsLower h)
  exact pyIsLower_eq_false_of_upper_mem (List.mem_map_of_mem upperCh hc)
    (upperCh_isUpper (hcl c hc hcased))


theorem pyLower_cons (c : Nat) (l : PyStr) :
    pyLower (c :: l) = lowerCh c :: pyLower l := rfl

theorem pyUpper_cons (c : Nat) (l : PyStr) :
    pyUpper (c :: l) = upperCh c :: pyUpper l := rfl

/-- Lowercasing undoes `title()` on a word without uppercase letters. -/
theorem pyLower_pyTitleAux {w : PyStr} (hcl : casedLower w) :
    ∀ prev, pyLower (pyTitleAux prev w) = w := by
  induction w with
  | nil => intro prev; rfl
  | cons c rest ih =>
    intro prev
    have hrest : casedLower rest := fun x hx hc => hcl x (by simp [hx]) hc
    have htail1 := ih hrest true
    have htail0 := ih hrest false
    cases hl : isLower c with
    | true =>
      have hnu := isUpper_false_of_isLower hl
      cases prev with
      | true => simp [pyTitleAux, hl, pyLower_cons, lowerCh_id hnu, htail1]
      | false => simp [pyTitleAux, hl, pyLower_cons, lowerCh_upperCh hl, htail1]
    | false =>
      cases hu : isUpper c with
      | true =>
        have := hcl c (by simp) (isCased_of_isUpper hu)
        rw [hl] at this
        cases this
      | false =>
        simp [pyTitleAux, hl, hu, pyLower_cons, lowerCh_id hu, htail0]

/-- The output of `title()` passes the `istitle()` scan. -/
theorem pyIsTitleAux_pyTitleAux {w : PyStr} (hcl : casedLower w) :
    ∀ prev, pyIsTitleAux prev (pyTitleAux prev w) = true := by
  induction w with
  | nil => intro prev; rfl
  | cons c rest ih =>
    intro prev
    have hrest : casedLower rest := fun x hx hc => hcl x (by simp [hx]) hc
    have htail := ih hrest true
    cases hl : isLower c with
    | true =>
      have hnu := isUpper_false_of_isLower hl
      cases prev with
      | true => simp [pyTitleAux, hl, pyIsTitleAux, hnu, htail]
      | false => simp [pyTitleAux, hl, pyIsTitleAux, upperCh_isUpper hl, htail]
    | false =>
      cases hu : isUpper c with
      | true =>
        have := hcl c (by simp) (isCased_of_isUpper hu)
        rw [hl] at this
        cases this
      | false =>
        have htail0 := ih hrest false
        simp [pyTitleAux, hl, hu, pyIsTitleAux, htail0]

/-- `title()` of a word with a cased character contains an uppercase
character. -/
theorem pyTitleAux_upper_mem {w : PyStr} (hcl : casedLower w)
    (hany : w.any isCased = true) :
    ∃ x ∈ pyTitleAux false w, isUpper x = true := by
  induction w with
  | nil => cases hany
  | cons c rest ih =>
    have hrest : casedLower rest := fun x hx hc => hcl x (by simp [hx]) hc
    cases hl : isLower c with
    | true =>
      exact ⟨upperCh c, by simp [pyTitleAux, hl], upperCh_isUpper hl⟩
    | false =>
      cases hu : isUpper c with
      | true =>
        have := hcl c (by simp) (isCased_of_isUpper hu)
        rw [hl] at this
        cases this
      | false =>
        have hcc : isCased c = false := by simp [isCased, hl, hu]
        have hany2 : rest.any isCased = true := by
          simpa [List.any_cons, hcc] using hany
        obtain ⟨x, hx, hxu⟩ := ih hrest hany2
        exact ⟨x, by simp [pyTitleAux, hl, hu, hx], hxu⟩

/-- If `title()` produced an all-uppercase word, it equals `upper()`. -/
theorem pyTitleAux_eq_pyUpper {w : PyStr} (hcl : casedLower w) :
    ∀ prev, (pyTitleAux prev w).all (fun c => !isCased c || isUpper c) = true →
      pyTitleAux prev w = pyUpper w := by
  induction w with
  | nil => intro prev _; rfl
  | cons c rest ih =>
    intro prev hall
    have hrest : casedLower rest := fun x hx hc => hcl x (by simp [hx]) hc
    cases hl : isLower c with
    | true =>
      have hnu := isUpper_false_of_isLower hl
      cases prev with
      | true =>
        rw [pyTitleAux, if_pos hl] at hall
        simp only [if_true, List.all_cons, Bool.and_eq_true] at hall
        rw [isCased_of_isLower hl, hnu] at hall
        cases hall.1
      | false =>
        rw [pyTitleAux, if_pos hl] at hall ⊢
        simp only [if_false, List.all_cons, Bool.and_eq_true] at hall
        rw [pyUpper_cons]
        rw [if_neg (by simp)]
        rw [ih hrest true hall.2]
    | false =>
      cases hu : isUpper c with
      | true =>
        have := hcl c (by simp) (isCased_of_isUpper hu)
        rw [hl] at this
        cases this
      | false =>
        rw [pyTitleAux, if_neg (by simp [hl]), if_neg (by simp [hu])] at hall ⊢
        simp only [List.all_cons, Bool.and_eq_true] at hall
        rw [pyUpper_cons, upperCh_id hl]
        rw [ih hrest false hall.2]


theorem pyLower_pyTitle {w : PyStr} (hcl : casedLower w) :
    pyLower (pyTitle w) = w :=
  pyLower_pyTitleAux hcl false

theorem pyIsLower_pyTitle {w : PyStr} (h : pyIsLower w = true) :
    pyIsLower (pyTitle w) = false := by
  obtain ⟨x, hx, hxu⟩ :=
    pyTitleAux_upper_mem (casedLower_of_pyIsLower h) (anyCased_of_pyIsLower h)
  exact pyIsLower_eq_false_of_upper_mem hx hxu

theorem pyIsTitle_pyTitle {w : PyStr} (h : pyIsLower w = true) :
    pyIsTitle (pyTitle w) = true := by
  have hcl := casedLower_of_pyIsLower h
  obtain ⟨x, hx, hxu⟩ := pyTitleAux_upper_mem hcl (anyCased_of_pyIsLower h)
  simp only [pyIsTitle, Bool.and_eq_true]
  exact ⟨List.any_eq_true.mpr ⟨x, hx, isCased_of_isUpper hxu⟩,
    pyIsTitleAux_pyTitleAux hcl false⟩

theorem pyTitle_eq_pyUpper {w : PyStr} (hcl : casedLower w)
    (h : pyIsUpper (pyTitle w) = true) : pyTitle w = pyUpper w := by
  simp only [pyIsUpper, Bool.and_eq_true] at h
  exact pyTitleAux_eq_pyUpper hcl false h.2

/-- C6: a word of the exemption set is replaced by itself in all three
casings, with no cache entry created (the state is returned untouched). -/
theorem c6_exempt_identity (nom : Nominator) (w : PyStr)
    (hmem : w ∈ nom.no_replace) (hlow : pyIsLower w = true) (st : NomState) :
    nom.replace_single w st = (.ok w, st)
      ∧ nom.replace_single (pyUpper w) st = (.ok (pyUpper w), st)
      ∧ nom.replace_single (pyTitle w) st = (.ok (pyTitle w), st) := by
  have hcl := casedLower_of_pyIsLower hlow
  have hr : nom._replace w st = (.ok w, st) := by
    simp [Nominator._replace, hmem]
  refine ⟨?_, ?_, ?_⟩
  · simp [Nominator.replace_single, hlow, hr]
  · simp [Nominator.replace_single, pyIsLower_pyUpper hlow,
      pyIsUpper_pyUpper hlow, pyLower_pyUpper hcl, hr]
  · have h1 := pyIsLower_pyTitle hlow
    have h3 : pyLower (pyTitle w) = w := pyLower_pyTitle hcl
    cases h2 : pyIsUpper (pyTitle w) with
    | true =>
      rw [pyTitle_eq_pyUpper hcl h2]
      simp [Nominator.replace_single, pyIsLower_pyUpper hlow,
        pyIsUpper_pyUpper hlow, pyLower_pyUpper hcl, hr]
    | false =>
      simp [Nominator.replace_single, h1, h2, pyIsTitle_pyTitle hlow, h3, hr]

/-- Witness for C6: the chicken Nominator leaves `id`, `ID`, `Id`
unchanged. -/
theorem c6_witness :
    chickenNom.replace_single (str "id") st0 = (.ok (str "id"), st0)
      ∧ chickenNom.replace_single (str "ID") st0 = (.ok (str "ID"), st0)
      ∧ chickenNom.replace_single (str "Id") st0 = (.ok (str "Id"), st0) :=
  c6_exempt_identity chickenNom (str "id") (by decide) (by decide) st0


/-! ### Cache stability -/

/-- `_replace` never evicts or overwrites an existing cache entry. -/
theorem _replace_preserves (nom : Nominator) (w2 : PyStr) (st : NomState)
    {w r : PyStr} (h : cacheGet w st.cache = some r) :
    cacheGet w (nom._replace w2 st).2.cache = some r := by
  by_cases hnr : w2 ∈ nom.no_replace
  · simpa [Nominator._replace, hnr] using h
  · cases hc : cacheGet w2 st.cache with
    | some r2 => simpa [Nominator._replace, hnr, hc] using h
    | none =>
      cases hrc : randomChoice (nom.rng st.rngIdx) nom.replacements with
      | none => simpa [Nominator._replace, hnr, hc, hrc] using h
      | some repl =>
        by_cases hw : w2 = w
        · rw [hw] at hc
          rw [hc] at h
          cases h
        · simp [Nominator._replace, hnr, hc, hrc, cacheGet, hw, h]

/-- `replace_single` never evicts or overwrites an existing cache entry. -/
theorem replace_single_preserves (nom : Nominator) (w2 : PyStr) (st : NomState)
    {w r : PyStr} (h : cacheGet w st.cache = some r) :
    cacheGet w (nom.replace_single w2 st).2.cache = some r := by
  by_cases h1 : pyIsLower w2 = true
  · simpa [Nominator.replace_single, h1] using _replace_preserves nom w2 st h
  · by_cases h2 : pyIsUpper w2 = true
    · have hp := _replace_preserves nom (pyLower w2) st h
      rcases hres : nom._replace (pyLower w2) st with ⟨res, st2⟩
      rw [hres] at hp
      cases res with
      | ok r2 => simpa [Nominator.replace_single, h1, h2, hres] using hp
      | error e => simpa [Nominator.replace_single, h1, h2, hres] using hp
    · by_cases h3 : pyIsTitle w2 = true
      · have hp := _replace_preserves nom (pyLower w2) st h
        rcases hres : nom._replace (pyLower w2) st with ⟨res, st2⟩
        rw [hres] at hp
        cases res with
        | ok r2 => simpa [Nominator.replace_single, h1, h2, h3, hres] using hp
        | error e => simpa [Nominator.replace_single, h1, h2, h3, hres] using hp
      · simpa [Nominator.replace_single, h1, h2, h3] using h

/-- The word-by-word join never evicts or overwrites a cache entry. -/
theorem processCased_preserves (nom : Nominator) :
    ∀ (ws : List PyStr) (st : NomState) {w r : PyStr},
      cacheGet w st.cache = some r →
      cacheGet w (processCased nom ws st).2.cache = some r := by
  intro ws
  induction ws with
  | nil => intro st w r h; simpa [processCased] using h
  | cons w2 ws ih =>
    intro st w r h
    have h2 := replace_single_preserves nom w2 st h
    rcases hres : nom.replace_single w2 st with ⟨res, st2⟩
    rw [hres] at h2
    cases res with
    | error e => simpa [processCased, hres] using h2
    | ok r2 =>
      have h3 := ih st2 h2
      rcases hres2 : processCased nom ws st2 with ⟨res2, st3⟩
      rw [hres2] at h3
      cases res2 with
      | error e => simpa [processCased, hres, hres2] using h3
      | ok rs => simpa [processCased, hres, hres2] using h3

/-- Chunk processing never evicts or overwrites a cache entry. -/
theorem process_cased_words_preserves (nom : Nominator) (chunk : PyStr)
    (st : NomState) {w r : PyStr} (h : cacheGet w st.cache = some r) :
    cacheGet w (nom._process_cased_words chunk st).2.cache = some r :=
  processCased_preserves nom (split_replace_by_case chunk) st h

/-- `replace_combined` never evicts or overwrites a cache entry. -/
theorem replace_combined_aux_preserves (nom : Nominator) :
    ∀ (fuel : Nat) (s : PyStr) (st : NomState) {w r : PyStr},
      cacheGet w st.cache = some r →
      cacheGet w (replace_combined_aux nom fuel s st).2.cache = some r := by
  intro fuel
  induction fuel with
  | zero => intro s st w r h; simpa [replace_combined_aux] using h
  | succ fuel ih =>
    intro s st w r h
    match s with
    | [] => simpa [replace_combined_aux] using h
    | c :: rest =>
      by_cases hc : c = 95
      · have h2 := ih rest st h
        rcases hres : replace_combined_aux nom fuel rest st with ⟨res, st2⟩
        rw [hres] at h2
        cases res with
        | error e => simpa [replace_combined_aux, hc, hres] using h2
        | ok out => simpa [replace_combined_aux, hc, hres] using h2
      · have h2 := process_cased_words_preserves nom
          (c :: List.takeWhile (fun d => !(d == 95)) rest) st h
        rcases hres : nom._process_cased_words
            (c :: List.takeWhile (fun d => !(d == 95)) rest) st with ⟨res, st2⟩
        rw [hres] at h2
        cases res with
        | error e => simpa [replace_combined_aux, hc, hres] using h2
        | ok out =>
          have h3 := ih (List.dropWhile (fun d => !(d == 95)) rest) st2 h2
          rcases hres2 : replace_combined_aux nom fuel
              (List.dropWhile (fun d => !(d == 95)) rest) st2 with ⟨res2, st3⟩
          rw [hres2] at h3
          cases res2 with
          | error e => simpa [replace_combined_aux, hc, hres, hres2] using h3
          | ok out2 => simpa [replace_combined_aux, hc, hres, hres2] using h3


/-- C3: for a non-exempt lowercase word, the replacement choice is made
once, cached at the first encounter, and every later replacement — by
`_replace`, by `replace_single` in any of the three casings, or anywhere
inside `replace_combined` — derives from that single cached choice, which
is never evicted or overwritten. -/
theorem c3_single_cached_choice (nom : Nominator) (w r : PyStr)
    (hlow : pyIsLower w = true) (hnx : w ∉ nom.no_replace) :
    (∀ (st st2 : NomState) (r0 : PyStr),
        nom._replace w st = (.ok r0, st2) → cacheGet w st2.cache = some r0)
      ∧ (∀ st : NomState, cacheGet w st.cache = some r →
          nom._replace w st = (.ok r, st))
      ∧ (∀ st : NomState, cacheGet w st.cache = some r →
          nom.replace_single w st = (.ok r, st))
      ∧ (∀ st : NomState, cacheGet w st.cache = some r →
          nom.replace_single (pyUpper w) st = (.ok (pyUpper r), st))
      ∧ (∀ st : NomState, cacheGet w st.cache = some r →
          nom.replace_single (pyTitle w) st = (.ok (pyTitle r), st)
            ∨ nom.replace_single (pyTitle w) st = (.ok (pyUpper r), st))
      ∧ (∀ (s : PyStr) (st : NomState), cacheGet w st.cache = some r →
          cacheGet w (nom.replace_combined s st).2.cache = some r) := by
  have hcl := casedLower_of_pyIsLower hlow
  refine ⟨?_, ?_, ?_, ?_, ?_, ?_⟩
  · intro st st2 r0 h
    cases hc : cacheGet w st.cache with
    | some rc =>
      rw [Nominator._replace, if_neg hnx, hc] at h
      obtain ⟨h1, rfl⟩ := Prod.mk.injEq .. ▸ h
      obtain rfl : rc = r0 := by simpa using h1
      simpa using hc
    | none =>
      cases hrc : randomChoice (nom.rng st.rngIdx) nom.replacements with
      | none => simp [Nominator._replace, hnx, hc, hrc] at h
      | some repl =>
        rw [Nominator._replace, if_neg hnx, hc, hrc] at h
        obtain ⟨h1, rfl⟩ := Prod.mk.injEq .. ▸ h
        obtain rfl : repl = r0 := by simpa using h1
        simp [cacheGet]
  · intro st hc
    simp [Nominator._replace, hnx, hc]
  · intro st hc
    simp [Nominator.replace_single, hlow, Nominator._replace, hnx, hc]
  · intro st hc
    have hr : nom._replace w st = (.ok r, st) := by
      simp [Nominator._replace, hnx, hc]
    simp [Nominator.replace_single, pyIsLower_pyUpper hlow,
      pyIsUpper_pyUpper hlow, pyLower_pyUpper hcl, hr]
  · intro st hc
    have hr : nom._replace w st = (.ok r, st) := by
      simp [Nominator._replace, hnx, hc]
    cases h2 : pyIsUpper (pyTitle w) with
    | true =>
      right
      rw [pyTitle_eq_pyUpper hcl h2]
      simp [Nominator.replace_single, pyIsLower_pyUpper hlow,
        pyIsUpper_pyUpper hlow, pyLower_pyUpper hcl, hr]
    | false =>
      left
      simp [Nominator.replace_single, pyIsLower_pyTitle hlow, h2,
        pyIsTitle_pyTitle hlow, pyLower_pyTitle hcl, hr]
  · intro s st hc
    exact replace_combined_aux_preserves nom s.length s st hc

/-- Witness for C3 on the spam fixture: `foo` is cached as `egg` and all
calling conventions keep returning it. -/
theorem c3_witness :
    spamNom._replace (str "foo") spamSt = (.ok (str "egg"), spamSt)
      ∧ spamNom.replace_single (str "FOO") spamSt = (.ok (str "EGG"), spamSt)
      ∧ cacheGet (str "foo")
          (spamNom.replace_combined (str "foo_baz_bar") spamSt).2.cache
        = some (str "egg") := by
  have h := c3_single_cached_choice spamNom (str "foo") (str "egg")
    (by decide) (by decide)
  exact ⟨h.2.1 spamSt (by decide), h.2.2.2.1 spamSt (by decide),
    h.2.2.2.2.2 (str "foo_baz_bar") spamSt (by decide)⟩

end Nominat
